import Mathlib

/-!
Verification of the `nilm.timeseries` module (`TimeSeries` class).

Modelling conventions:
* `time` is a `uint32`; it is modelled as `Nat` (all claims assume sorted
  inputs, under which every subtraction performed by the code is
  non-negative, so `Nat` subtraction agrees with `uint32` subtraction).
* `power` is a `float32`; it is modelled as `ℚ` (exact arithmetic; the
  claims that speak about float tolerance are settled up to this
  idealisation, exact equality implying equality within any tolerance).
* a raised Python exception is modelled by `none` / `.error`.
-/

namespace NILM

/-- One record of the structured array `self.array`, with fields
`('time', np.uint32)` and `('power', np.float32)`. -/
structure Sample where
  time : Nat
  power : ℚ
deriving DecidableEq, Repr

/-- The sample array held by a `TimeSeries` (`self.array`), in storage
order.  The `name` attribute has no effect on any operation and is
omitted. -/
abbrev TimeSeries := List Sample

/-- Property `times`: the projection `self.array['time']`. -/
def times (a : TimeSeries) : List Nat := a.map (·.time)

/-- Property `powers`: the projection `self.array['power']`. -/
def powers (a : TimeSeries) : List ℚ := a.map (·.power)

/-- Method indicators: `np.apply_along_axis(lambda x: (x > threshold), 0, self.powers)`,
i.e. the elementwise boolean `power > threshold`.  (On a 1-d input
`apply_along_axis` applies the lambda once to the whole vector, so it is
exactly the elementwise comparison; on an empty series it returns an
empty boolean vector.) -/
def indicators (a : TimeSeries) (threshold : ℚ) : List Bool :=
  (powers a).map (fun x => decide (threshold < x))

/-- The `for i in xrange(len(ind))` loop of `activations`, with state
`(in_interval, start, activations)`; `i` is the index of the first
element of the remaining list. -/
def actLoop : List Bool → Nat → Bool → Nat → List (Nat × Nat) →
    Bool × Nat × List (Nat × Nat)
  | [], _, inInterval, start, acc => (inInterval, start, acc)
  | b :: rest, i, inInterval, start, acc =>
    let s1 : Bool × Nat × List (Nat × Nat) :=
      if !b && inInterval then (false, start, acc ++ [(start, i)])
      else (inInterval, start, acc)
    let s2 : Bool × Nat × List (Nat × Nat) :=
      if b && !s1.1 then (true, i, s1.2.2) else s1
    actLoop rest (i + 1) s2.1 s2.2.1 s2.2.2

/-- Method activations.  The source reads `in_interval = ind[0]`
unconditionally, which raises `IndexError` when the indicator vector is
empty; this raise is modelled by `none`.  The local `start` is unbound
until first assignment and is never read while `in_interval` is false,
so it is modelled as starting at `0`. -/
def activations (a : TimeSeries) (threshold : ℚ) : Option (List (Nat × Nat)) :=
  let ind := indicators a threshold
  match ind with
  | [] => none
  | b :: _ =>
    let r := actLoop ind 0 b 0 []
    some (if r.1 then r.2.2 ++ [(r.2.1, ind.length)] else r.2.2)

/-- Modelled from the spec: the list of maximal runs of `true` of an
indicator sequence as half-open index intervals, scanning left to right
from absolute index `i`; the state `some s` means a run begun at index
`s` is currently open, `none` means no run is open. -/
def runsAux : List Bool → Nat → Option Nat → List (Nat × Nat)
  | [], _, none => []
  | [], i, some s => [(s, i)]
  | true :: rest, i, none => runsAux rest (i + 1) (some i)
  | true :: rest, i, some s => runsAux rest (i + 1) (some s)
  | false :: rest, i, none => runsAux rest (i + 1) none
  | false :: rest, i, some s => (s, i) :: runsAux rest (i + 1) none

/-- Modelled from the spec: the maximal runs of `true` in an indicator
sequence, as half-open `[start, end)` index intervals. -/
def maximalRuns (l : List Bool) : List (Nat × Nat) := runsAux l 0 none

/-- Method intersect: `np.in1d(self.times, ts.times, assume_unique=True)`
followed by boolean-mask selection.  For inputs that are in fact unique
(the documented precondition) `in1d` is exact set membership, so the
selection keeps exactly the samples whose time occurs in `ts.times`,
in the receiver's original order. -/
def intersect (a b : TimeSeries) : TimeSeries :=
  a.filter (fun s => (times b).contains s.time)

/-- Error kinds of the spec.  `lengthMismatch` stands for the numpy
`ValueError` raised by an incompatible-shape assignment
(`LengthMismatchError` in the spec); `emptySeries` stands for the
`IndexError` raised by indexing an empty array (`EmptySeriesError`). -/
inductive TSError where
  | lengthMismatch
  | emptySeries
deriving DecidableEq, Repr

/-- The `powers` setter: `self.array['power'] = power_array.copy()`.
Numpy field assignment broadcasts: a source of the target's length is
copied index-for-index, a source of length 1 is broadcast to every
index, and any other length raises `ValueError` before writing
anything. -/
def setPowers (a : TimeSeries) (ps : List ℚ) : Except TSError TimeSeries :=
  if ps.length = a.length then
    .ok (a.zipWith (fun s p => { s with power := p }) ps)
  else if ps.length = 1 then
    .ok (a.map (fun s => { s with power := ps.headI }))
  else
    .error .lengthMismatch

/-- The `powers` setter as an in-place operation on the receiver: the
pair of the raised outcome and the receiver's array afterwards (numpy
raises the shape error before any element is written, so on error the
array is unchanged). -/
def setPowersRun (a : TimeSeries) (ps : List ℚ) : Except TSError Unit × TimeSeries :=
  match setPowers a ps with
  | .ok a2 => (.ok (), a2)
  | .error e => (.error e, a)

/-- Statement `ts_sum.powers += ts.powers[indices2]` (resp. `-=`): in-place numpy
arithmetic on the power column, with the same broadcast rule as
assignment; an incompatible length raises `ValueError`, modelled by
`none`.  (For unique-timestamp inputs the two filtered sequences always
have equal length, so the `none` branch is unreachable there.) -/
def combine (op : ℚ → ℚ → ℚ) (a : TimeSeries) (ps : List ℚ) : Option TimeSeries :=
  if ps.length = a.length then
    some (a.zipWith (fun s p => { s with power := op s.power p }) ps)
  else if ps.length = 1 then
    some (a.map (fun s => { s with power := op s.power ps.headI }))
  else
    none

/-- Method add: `self.array[indices1]` is the receiver filtered to the
shared timestamps (a fresh array: boolean-mask indexing copies), and
`ts.powers[indices2]` is the argument's power column filtered the same
way; the powers are then summed in place on the fresh array. -/
def addTS (a b : TimeSeries) : Option TimeSeries :=
  combine (· + ·) (intersect a b) (powers (intersect b a))

/-- Method sub: as `__add__` with `-=` in place of `+=`. -/
def subTS (a b : TimeSeries) : Option TimeSeries :=
  combine (· - ·) (intersect a b) (powers (intersect b a))

/-- The fill loop `for t in xrange(self.times[i]+1, self.times[i+1])` of
`pad`: one padding sample per intermediate integer timestamp, carrying
the left endpoint's power. -/
def gapFill (s t : Sample) : List Sample :=
  (List.range' (s.time + 1) (t.time - s.time - 1)).map (fun u => ⟨u, s.power⟩)

/-- The main loop of `pad`, building the padded array in write order:
each original sample except the last, followed by its gap fill when the
gap `times[i+1] - times[i]` does not exceed `max_pad`, and finally the
last original sample (appended unconditionally after the loop). -/
def padRun : TimeSeries → Nat → TimeSeries
  | [], _ => []
  | [s], _ => [s]
  | s :: t :: rest, g =>
    s :: ((if t.time - s.time > g then [] else gapFill s t) ++ padRun (t :: rest) g)

/-- Method pad: `self.times[-1]` raises `IndexError` on an empty
series (modelled by `none`); otherwise the buffer writes described by
`padRun` (the source writes into a buffer of size
`times[-1] - times[0] + 1` and truncates it to the written length, which
reproduces exactly the written sequence for the sorted unique inputs the
claims quantify over). -/
def pad (a : TimeSeries) (g : Nat) : Option TimeSeries :=
  match a with
  | [] => none
  | _ :: _ => some (padRun a g)

/-- The record order used by `np.sort` on the structured array:
lexicographic on the fields in declaration order, `time` then `power`. -/
def sampleLE (s t : Sample) : Prop :=
  s.time < t.time ∨ (s.time = t.time ∧ s.power ≤ t.power)

instance : DecidableRel sampleLE := fun s t => by
  unfold sampleLE; infer_instance

instance : IsTotal Sample sampleLE := by
  constructor
  intro s t
  rcases Nat.lt_trichotomy s.time t.time with h | h | h
  · exact Or.inl (Or.inl h)
  · rcases le_total s.power t.power with hp | hp
    · exact Or.inl (Or.inr ⟨h, hp⟩)
    · exact Or.inr (Or.inr ⟨h.symm, hp⟩)
  · exact Or.inr (Or.inl h)

instance : IsTrans Sample sampleLE := by
  constructor
  intro s t u hst htu
  rcases hst with h1 | ⟨h1, hp1⟩
  · rcases htu with h2 | ⟨h2, _⟩
    · exact Or.inl (h1.trans h2)
    · exact Or.inl (h2 ▸ h1)
  · rcases htu with h2 | ⟨h2, hp2⟩
    · exact Or.inl (h1 ▸ h2)
    · exact Or.inr ⟨h1.trans h2, hp1.trans hp2⟩

/-- Construction with a path: `np.genfromtxt` parses the file into a list
of records (modelled as the given raw list) and `np.sort` sorts it by
the record order (we model the sort by insertion sort, which produces
the same output: the lexicographic record order is total and
antisymmetric, so the sorted rearrangement is unique). -/
def load (raw : List Sample) : TimeSeries := List.insertionSort sampleLE raw

/-- Construction without a path:
`np.rec.array((0, 2), dtype=[('time', np.uint32), ('power', np.float32)])`.
`np.rec.array` dispatches a flat tuple to `fromarrays([0, 2], ...)`,
which takes the scalar `0` as the whole `time` column and the scalar `2`
as the whole `power` column of a zero-dimensional record array: the
result holds the single record `(time=0, power=2.0)`, modelled as a
one-sample list (not a zero-length array). -/
def emptyInit : TimeSeries := [⟨0, 2⟩]

/-! ### Activation detection: loop / reference correspondence -/

theorem indicators_length (a : TimeSeries) (θ : ℚ) :
    (indicators a θ).length = a.length := by
  simp [indicators, powers]

theorem actLoop_runsAux (l : List Bool) : ∀ (i : Nat) (inI : Bool) (s : Nat)
    (acc : List (Nat × Nat)),
    (if (actLoop l i inI s acc).1
      then (actLoop l i inI s acc).2.2 ++ [((actLoop l i inI s acc).2.1, i + l.length)]
      else (actLoop l i inI s acc).2.2)
    = acc ++ runsAux l i (if inI then some s else none) := by
  induction l with
  | nil =>
    intro i inI s acc
    cases inI <;> simp [actLoop, runsAux]
  | cons b rest ih =>
    intro i inI s acc
    have harith : i + (rest.length + 1) = i + 1 + rest.length := by omega
    cases b <;> cases inI
    · simpa [actLoop, runsAux, harith] using ih (i + 1) false s acc
    · simpa [actLoop, runsAux, harith] using ih (i + 1) false s (acc ++ [(s, i)])
    · simpa [actLoop, runsAux, harith] using ih (i + 1) true i acc
    · simpa [actLoop, runsAux, harith] using ih (i + 1) true s acc

theorem activations_eq_maximalRuns (a : TimeSeries) (θ : ℚ) (h : a ≠ []) :
    activations a θ = some (maximalRuns (indicators a θ)) := by
  obtain ⟨b, tl, hbtl⟩ : ∃ b tl, indicators a θ = b :: tl := by
    cases a with
    | nil => exact absurd rfl h
    | cons x xs => exact ⟨_, _, rfl⟩
  have key := actLoop_runsAux (b :: tl) 0 b 0 []
  unfold activations
  rw [hbtl]
  simp only [List.nil_append, Nat.zero_add] at key
  simp only [key]
  congr 1
  show runsAux (b :: tl) 0 (if b then some 0 else none) = maximalRuns (b :: tl)
  cases b <;> simp [maximalRuns, runsAux]

/-! ### Structural properties of the reference run decomposition -/

theorem runsAux_replicate_false : ∀ (n i : Nat),
    runsAux (List.replicate n false) i none = [] := by
  intro n
  induction n with
  | zero => intro i; rfl
  | succ m ih => intro i; simpa [List.replicate, runsAux] using ih (i + 1)

theorem runsAux_replicate_true : ∀ (n i s : Nat),
    runsAux (List.replicate n true) i (some s) = [(s, i + n)] := by
  intro n
  induction n with
  | zero => intro i s; rfl
  | succ m ih =>
    intro i s
    have : i + (m + 1) = i + 1 + m := by omega
    simpa [List.replicate, runsAux, this] using ih (i + 1) s

theorem runsAux_mem (l : List Bool) : ∀ (i : Nat) (o : Option Nat)
    (ho : ∀ u, o = some u → u < i) (p : Nat × Nat) (hp : p ∈ runsAux l i o),
    p.1 < p.2 ∧ p.2 ≤ i + l.length ∧ i ≤ p.2 ∧
      (o = none → i ≤ p.1) ∧ (∀ u, o = some u → u = p.1 ∨ i ≤ p.1) := by
  induction l with
  | nil =>
    intro i o ho p hp
    match o with
    | none => simp [runsAux] at hp
    | some u =>
      simp only [runsAux, List.mem_singleton] at hp
      subst hp
      refine ⟨ho u rfl, by simp, le_refl _, (by intro h; cases h), ?_⟩
      intro v hv
      injection hv with hv
      exact Or.inl hv.symm
  | cons b rest ih =>
    intro i o ho p hp
    match b, o with
    | true, none =>
      simp only [runsAux] at hp
      obtain ⟨h1, h2, h3, _, h5⟩ :=
        ih (i + 1) (some i) (by intro u hu; injection hu with hu; omega) p hp
      have h6 := h5 i rfl
      refine ⟨h1, (by simp only [List.length_cons]; omega), (by omega),
        (by intro _; omega), (by intro u hu; cases hu)⟩
    | true, some u =>
      simp only [runsAux] at hp
      obtain ⟨h1, h2, h3, _, h5⟩ := ih (i + 1) (some u)
        (by intro v hv; injection hv with hv; subst hv; exact (ho u rfl).trans (by omega)) p hp
      have h6 := h5 u rfl
      refine ⟨h1, (by simp only [List.length_cons]; omega), (by omega),
        (by intro h; cases h), ?_⟩
      intro v hv
      injection hv with hv
      subst hv
      rcases h6 with h6 | h6
      · exact Or.inl h6
      · exact Or.inr (by omega)
    | false, none =>
      simp only [runsAux] at hp
      obtain ⟨h1, h2, h3, h4, _⟩ := ih (i + 1) none (by intro u hu; cases hu) p hp
      have h6 := h4 rfl
      exact ⟨h1, (by simp only [List.length_cons]; omega), (by omega),
        (by intro _; omega), (by intro u hu; cases hu)⟩
    | false, some u =>
      simp only [runsAux, List.mem_cons] at hp
      rcases hp with hp | hp
      · subst hp
        refine ⟨ho u rfl, (by simp only [List.length_cons]; omega), le_refl _,
          (by intro h; cases h), ?_⟩
        intro v hv
        injection hv with hv
        exact Or.inl hv.symm
      · obtain ⟨h1, h2, h3, h4, _⟩ := ih (i + 1) none (by intro v hv; cases hv) p hp
        have h6 := h4 rfl
        refine ⟨h1, (by simp only [List.length_cons]; omega), (by omega),
          (by intro h; cases h), ?_⟩
        intro v hv
        injection hv with hv
        exact Or.inr (by omega)

theorem runsAux_end_false (l : List Bool) : ∀ (i : Nat) (o : Option Nat)
    (ho : ∀ u, o = some u → u < i) (p : Nat × Nat) (hp : p ∈ runsAux l i o)
    (hlt : p.2 < i + l.length), l.get? (p.2 - i) = some false := by
  induction l with
  | nil =>
    intro i o ho p hp hlt
    match o with
    | none => simp [runsAux] at hp
    | some u =>
      simp only [runsAux, List.mem_singleton] at hp
      subst hp
      simp at hlt
  | cons b rest ih =>
    intro i o ho p hp hlt
    have step : ∀ (o2 : Option Nat) (ho2 : ∀ u, o2 = some u → u < i + 1),
        p ∈ runsAux rest (i + 1) o2 → rest.get? (p.2 - (i + 1)) = some false →
        (b :: rest).get? (p.2 - i) = some false := by
      intro o2 ho2 hp2 hrest
      have hge : i + 1 ≤ p.2 := (runsAux_mem rest (i + 1) o2 ho2 p hp2).2.2.1
      have : p.2 - i = (p.2 - (i + 1)) + 1 := by omega
      rw [this]
      simpa using hrest
    match b, o with
    | true, none =>
      simp only [runsAux] at hp
      have ho2 : ∀ u, (some i : Option Nat) = some u → u < i + 1 := by
        intro u hu; injection hu with hu; omega
      exact step (some i) ho2 hp (ih (i + 1) (some i) ho2 p hp (by simp only [List.length_cons] at hlt; omega))
    | true, some u =>
      simp only [runsAux] at hp
      have ho2 : ∀ v, (some u : Option Nat) = some v → v < i + 1 := by
        intro v hv; injection hv with hv; subst hv; exact (ho u rfl).trans (by omega)
      exact step (some u) ho2 hp (ih (i + 1) (some u) ho2 p hp (by simp only [List.length_cons] at hlt; omega))
    | false, none =>
      simp only [runsAux] at hp
      have ho2 : ∀ u, (none : Option Nat) = some u → u < i + 1 := by intro u hu; cases hu
      exact step none ho2 hp (ih (i + 1) none ho2 p hp (by simp only [List.length_cons] at hlt; omega))
    | false, some u =>
      simp only [runsAux, List.mem_cons] at hp
      rcases hp with hp | hp
      · subst hp
        simp
      · have ho2 : ∀ u, (none : Option Nat) = some u → u < i + 1 := by intro u hu; cases hu
        exact step none ho2 hp (ih (i + 1) none ho2 p hp (by simp only [List.length_cons] at hlt; omega))

theorem runsAux_chain (l : List Bool) : ∀ (i : Nat) (o : Option Nat)
    (ho : ∀ u, o = some u → u < i),
    List.Chain' (fun p q => p.2 < q.1) (runsAux l i o) := by
  induction l with
  | nil =>
    intro i o ho
    match o with
    | none => simp [runsAux]
    | some u => simp [runsAux]
  | cons b rest ih =>
    intro i o ho
    match b, o with
    | true, none =>
      simpa [runsAux] using ih (i + 1) (some i) (by intro u hu; injection hu with hu; omega)
    | true, some u =>
      simpa [runsAux] using ih (i + 1) (some u)
        (by intro v hv; injection hv with hv; subst hv; exact (ho u rfl).trans (by omega))
    | false, none =>
      simpa [runsAux] using ih (i + 1) none (by intro u hu; cases hu)
    | false, some u =>
      simp only [runsAux]
      have ho2 : ∀ u, (none : Option Nat) = some u → u < i + 1 := by intro u hu; cases hu
      refine List.chain'_cons'.mpr ⟨?_, ih (i + 1) none ho2⟩
      intro q hq
      have hqmem : q ∈ runsAux rest (i + 1) none := List.mem_of_mem_head? hq
      have := (runsAux_mem rest (i + 1) none ho2 q hqmem).2.2.2.1 rfl
      omega

theorem chain'_and_mem {α : Type} {R S : α → α → Prop} :
    ∀ (l : List α), List.Chain' R l →
      (∀ p ∈ l, ∀ q ∈ l, R p q → S p q) → List.Chain' S l := by
  intro l
  induction l with
  | nil => intro _ _; exact List.chain'_nil
  | cons a t ih =>
    intro hc hm
    cases t with
    | nil => exact List.chain'_singleton a
    | cons b t2 =>
      rw [List.chain'_cons] at hc ⊢
      refine ⟨hm a (by simp) b (by simp) hc.1, ?_⟩
      exact ih hc.2 (fun p hp q hq hR => hm p (by simp [hp]) q (by simp [hq]) hR)

theorem chain'_lt_pairwise :
    ∀ (l : List (Nat × Nat)), List.Chain' (fun p q => p.2 < q.1) l →
      (∀ p ∈ l, p.1 < p.2) → List.Pairwise (fun p q => p.2 < q.1) l := by
  intro l
  induction l with
  | nil => intro _ _; exact List.Pairwise.nil
  | cons a t ih =>
    intro hc hm
    rw [List.pairwise_cons]
    have hct : List.Chain' (fun p q => p.2 < q.1) t := hc.tail
    have hpt := ih hct (fun p hp => hm p (List.mem_cons_of_mem _ hp))
    refine ⟨?_, hpt⟩
    intro q hq
    cases t with
    | nil => cases hq
    | cons b t2 =>
      have hab : a.2 < b.1 := (List.chain'_cons.mp hc).1
      rcases List.mem_cons.mp hq with hq | hq
      · exact hq ▸ hab
      · have hb2 : b.1 < b.2 := hm b (by simp)
        have := (List.pairwise_cons.mp hpt).1 q hq
        omega

/-! ### The claims about activation detection -/

/-- The concrete test series of the spec: at threshold 0 its indicator
sequence is `[F,F,T,T,F,T,F,F,T]`. -/
def exSeries : TimeSeries :=
  [⟨0, 0⟩, ⟨1, 0⟩, ⟨2, 1⟩, ⟨3, 1⟩, ⟨4, 0⟩, ⟨5, 1⟩, ⟨6, 0⟩, ⟨7, 0⟩, ⟨8, 1⟩]

/-- C1: on every non-empty series, `activations` returns exactly the
maximal runs of `true` of the indicator sequence as half-open index
intervals (the reference decomposition `maximalRuns`); in particular the
indicator sequence `[F,F,T,T,F,T,F,F,T]` yields `[(2,4),(5,6),(8,9)]`,
an all-false indicator sequence yields `[]`, and an all-true indicator
sequence of length `n` yields `[(0,n)]` (a run reaching the last sample
is closed with `end = len(series)`, a run starting at index 0 is
captured with `start = 0`). -/
theorem claim_C1 :
    (∀ (a : TimeSeries) (θ : ℚ), a ≠ [] →
      activations a θ = some (maximalRuns (indicators a θ))) ∧
    indicators exSeries 0 =
      [false, false, true, true, false, true, false, false, true] ∧
    activations exSeries 0 = some [(2, 4), (5, 6), (8, 9)] ∧
    (∀ (a : TimeSeries) (θ : ℚ), a ≠ [] →
      indicators a θ = List.replicate a.length false →
      activations a θ = some []) ∧
    (∀ (a : TimeSeries) (θ : ℚ), a ≠ [] →
      indicators a θ = List.replicate a.length true →
      activations a θ = some [(0, a.length)]) := by
  refine ⟨activations_eq_maximalRuns, by decide, by decide, ?_, ?_⟩
  · intro a θ h hall
    rw [activations_eq_maximalRuns a θ h, hall]
    simp [maximalRuns, runsAux_replicate_false]
  · intro a θ h hall
    rw [activations_eq_maximalRuns a θ h, hall]
    cases a with
    | nil => exact absurd rfl h
    | cons x xs =>
      simp only [List.length_cons, List.replicate_succ, maximalRuns, runsAux]
      rw [runsAux_replicate_true]
      simp [Nat.add_comm]

theorem claim_C1_witness :
    exSeries ≠ [] ∧
    activations exSeries 0 = some (maximalRuns (indicators exSeries 0)) :=
  ⟨by decide, claim_C1.1 exSeries 0 (by decide)⟩

/-- C2: contrary to the claim, `activations` on an empty series does not
return `[]`: the source evaluates `ind[0]` unconditionally, which raises
`IndexError` on the empty indicator vector (modelled by `none`), for
every threshold. -/
theorem claim_C2 : ∀ θ : ℚ, activations ([] : TimeSeries) θ = none :=
  fun _ => rfl

/-- C10: every interval returned by `activations` is non-empty and in
bounds, the intervals are pairwise disjoint, their starts are strictly
increasing, and between two consecutive intervals the indicator sequence
is false at some index (namely at the end of the earlier interval). -/
theorem claim_C10 (a : TimeSeries) (θ : ℚ) (as : List (Nat × Nat))
    (h : activations a θ = some as) :
    (∀ p ∈ as, p.1 < p.2 ∧ p.2 ≤ a.length) ∧
    List.Pairwise (fun p q => p.2 ≤ q.1) as ∧
    List.Pairwise (fun p q => p.1 < q.1) as ∧
    List.Chain' (fun p q => ∃ j, p.2 ≤ j ∧ j < q.1 ∧
      (indicators a θ).get? j = some false) as := by
  have hne : a ≠ [] := by
    intro hnil
    subst hnil
    exact Option.noConfusion h
  have heq := activations_eq_maximalRuns a θ hne
  have has : maximalRuns (indicators a θ) = as := Option.some.inj (heq.symm.trans h)
  subst has
  have honone : ∀ u, (none : Option Nat) = some u → u < 0 := fun u hu => by cases hu
  have hmem := runsAux_mem (indicators a θ) 0 none honone
  have hlen : (indicators a θ).length = a.length := indicators_length a θ
  have hchain := runsAux_chain (indicators a θ) 0 none honone
  have hmemruns : ∀ p ∈ maximalRuns (indicators a θ),
      p ∈ runsAux (indicators a θ) 0 none := by
    intro p hp
    simpa [maximalRuns] using hp
  have hbounds : ∀ p ∈ maximalRuns (indicators a θ), p.1 < p.2 ∧ p.2 ≤ a.length := by
    intro p hp
    obtain ⟨h1, h2, _⟩ := hmem p (hmemruns p hp)
    exact ⟨h1, by omega⟩
  have hchain2 : List.Chain' (fun p q => p.2 < q.1) (maximalRuns (indicators a θ)) := by
    simpa [maximalRuns] using hchain
  have hplt : List.Pairwise (fun p q => p.2 < q.1) (maximalRuns (indicators a θ)) :=
    chain'_lt_pairwise _ hchain2 (fun p hp => (hbounds p hp).1)
  refine ⟨hbounds, hplt.imp (fun h2 => le_of_lt h2), ?_, ?_⟩
  · refine List.Pairwise.imp_of_mem ?_ hplt
    intro p q hp hq hR
    have := (hbounds p hp).1
    omega
  · refine chain'_and_mem _ hchain2 ?_
    intro p hp q hq hR
    refine ⟨p.2, le_refl _, hR, ?_⟩
    have hq2 := hmem q (hmemruns q hq)
    have hfin : p.2 < 0 + (indicators a θ).length := by
      have := hq2.1
      have := hq2.2.1
      omega
    simpa using runsAux_end_false (indicators a θ) 0 none honone p (hmemruns p hp) hfin

theorem claim_C10_witness :
    (∀ p ∈ ([(2, 4), (5, 6), (8, 9)] : List (Nat × Nat)),
      p.1 < p.2 ∧ p.2 ≤ exSeries.length) ∧
    List.Pairwise (fun p q => p.2 ≤ q.1) ([(2, 4), (5, 6), (8, 9)] : List (Nat × Nat)) ∧
    List.Pairwise (fun p q => p.1 < q.1) ([(2, 4), (5, 6), (8, 9)] : List (Nat × Nat)) ∧
    List.Chain' (fun p q => ∃ j, p.2 ≤ j ∧ j < q.1 ∧
      (indicators exSeries 0).get? j = some false)
      ([(2, 4), (5, 6), (8, 9)] : List (Nat × Nat)) :=
  claim_C10 exSeries 0 [(2, 4), (5, 6), (8, 9)] (by decide)

/-- C9: contrary to the claim, constructing a `TimeSeries` without a
source path does not give a zero-length series: the `np.rec.array((0, 2), ...)`
call builds a zero-dimensional record array holding the single record
`(time=0, power=2.0)`, so `times` is the scalar `0` and `powers` the
scalar `2.0` rather than empty sequences. -/
theorem claim_C9 :
    times emptyInit = [0] ∧ powers emptyInit = [2] ∧ emptyInit.length = 1 :=
  ⟨rfl, rfl, rfl⟩

/-! ### Projection helpers for pointwise power updates -/

theorem times_zipWith (f : Sample → ℚ → Sample) (hf : ∀ s p, (f s p).time = s.time) :
    ∀ (a : TimeSeries) (ps : List ℚ), ps.length = a.length →
      times (List.zipWith f a ps) = times a := by
  intro a
  induction a with
  | nil => intro ps _; simp [times]
  | cons s t ih =>
    intro ps h
    cases ps with
    | nil => simp at h
    | cons p pt =>
      have h2 : pt.length = t.length := by simpa using h
      simp only [List.zipWith_cons_cons, times, List.map_cons]
      rw [hf s p]
      have h3 := ih pt h2
      simp only [times] at h3
      rw [h3]

theorem powers_zipWith (f : Sample → ℚ → Sample) (g : ℚ → ℚ → ℚ)
    (hf : ∀ s p, (f s p).power = g s.power p) :
    ∀ (a : TimeSeries) (ps : List ℚ), ps.length = a.length →
      powers (List.zipWith f a ps) = List.zipWith g (powers a) ps := by
  intro a
  induction a with
  | nil => intro ps _; simp [powers]
  | cons s t ih =>
    intro ps h
    cases ps with
    | nil => simp at h
    | cons p pt =>
      have h2 : pt.length = t.length := by simpa using h
      simp only [List.zipWith_cons_cons, powers, List.map_cons]
      rw [hf s p]
      have h3 := ih pt h2
      simp only [powers] at h3
      rw [h3]

theorem times_map (f : Sample → Sample) (hf : ∀ s, (f s).time = s.time) :
    ∀ (a : TimeSeries), times (a.map f) = times a := by
  intro a
  induction a with
  | nil => rfl
  | cons s t ih =>
    simp only [List.map_cons, times, List.map_cons] at ih ⊢
    rw [hf s, ih]

theorem powers_map_const (p : ℚ) :
    ∀ (a : TimeSeries),
      powers (a.map (fun s => { s with power := p })) = List.replicate a.length p := by
  intro a
  induction a with
  | nil => rfl
  | cons s t ih =>
    simp only [List.map_cons, powers, List.map_cons, List.length_cons,
      List.replicate_succ] at ih ⊢
    rw [ih]

theorem zipWith_right : ∀ (xs : List ℚ) (ys : List ℚ), ys.length = xs.length →
    List.zipWith (fun _ y => y) xs ys = ys := by
  intro xs
  induction xs with
  | nil => intro ys h; cases ys with
    | nil => rfl
    | cons y yt => simp at h
  | cons x xt ih =>
    intro ys h
    cases ys with
    | nil => simp at h
    | cons y yt =>
      simp only [List.zipWith_cons_cons]
      rw [ih yt (by simpa using h)]

/-! ### C5: the powers setter -/

/-- The two-sample series used as concrete counterexample input. -/
def cexSeries : TimeSeries := [⟨0, 5⟩, ⟨1, 6⟩]

/-- C5, counterexample: the claim says every `newPowers` whose length
differs from the sample count fails with `LengthMismatchError` and
leaves the series unmodified; but a length-1 input is broadcast by the
numpy field assignment: on a 2-sample series it succeeds and overwrites
every power with the single value. -/
theorem claim_C5_cex :
    (([7] : List ℚ).length ≠ cexSeries.length) ∧
    setPowersRun cexSeries [7] = (.ok (), [⟨0, 7⟩, ⟨1, 7⟩]) :=
  ⟨by decide, rfl⟩

/-- C5 (amended): when `len(newPowers) == n` the setter replaces the
power field index-for-index, never changing times or the sample count;
when `len(newPowers) == 1 != n` numpy broadcasting sets every power to
the single value, without error; for every other mismatched length the
setter fails with `LengthMismatchError` and leaves the series
unmodified. -/
theorem claim_C5 (a : TimeSeries) (ps : List ℚ) :
    (ps.length = a.length →
      setPowersRun a ps =
        (.ok (), List.zipWith (fun s p => { s with power := p }) a ps) ∧
      times (setPowersRun a ps).2 = times a ∧
      powers (setPowersRun a ps).2 = ps ∧
      (setPowersRun a ps).2.length = a.length) ∧
    (ps.length ≠ a.length → ps.length = 1 →
      setPowersRun a ps = (.ok (), a.map (fun s => { s with power := ps.headI })) ∧
      times (setPowersRun a ps).2 = times a ∧
      powers (setPowersRun a ps).2 = List.replicate a.length ps.headI ∧
      (setPowersRun a ps).2.length = a.length) ∧
    (ps.length ≠ a.length → ps.length ≠ 1 →
      setPowersRun a ps = (.error .lengthMismatch, a)) := by
  refine ⟨?_, ?_, ?_⟩
  · intro h
    have hrun : setPowersRun a ps =
        (.ok (), List.zipWith (fun s p => { s with power := p }) a ps) := by
      simp [setPowersRun, setPowers, if_pos h]
    refine ⟨hrun, ?_, ?_, ?_⟩
    · rw [hrun]
      exact times_zipWith (fun s p => { s with power := p }) (fun _ _ => rfl) a ps h
    · rw [hrun]
      have := powers_zipWith (fun s p => { s with power := p }) (fun _ p => p)
        (fun _ _ => rfl) a ps h
      rw [this]
      exact zipWith_right (powers a) ps (by simpa [powers] using h)
    · rw [hrun]
      simp [List.length_zipWith]
      omega
  · intro h h1
    have hrun : setPowersRun a ps =
        (.ok (), a.map (fun s => { s with power := ps.headI })) := by
      simp [setPowersRun, setPowers, if_neg h, if_pos h1]
    refine ⟨hrun, ?_, ?_, ?_⟩
    · rw [hrun]
      exact times_map (fun s => { s with power := ps.headI }) (fun _ => rfl) a
    · rw [hrun]
      exact powers_map_const ps.headI a
    · rw [hrun]
      simp
  · intro h h1
    simp [setPowersRun, setPowers, if_neg h, if_neg h1]

theorem claim_C5_witness :
    (([10, 20] : List ℚ).length = cexSeries.length ∧
      setPowersRun cexSeries [10, 20] =
        (.ok (), List.zipWith (fun s p => { s with power := p }) cexSeries [10, 20])) ∧
    (([7] : List ℚ).length ≠ cexSeries.length ∧ ([7] : List ℚ).length = 1 ∧
      setPowersRun cexSeries [7] =
        (.ok (), cexSeries.map (fun s => { s with power := ([7] : List ℚ).headI }))) ∧
    (([1, 2, 3] : List ℚ).length ≠ cexSeries.length ∧ ([1, 2, 3] : List ℚ).length ≠ 1 ∧
      setPowersRun cexSeries [1, 2, 3] = (.error .lengthMismatch, cexSeries)) :=
  ⟨⟨by decide, ((claim_C5 cexSeries [10, 20]).1 (by decide)).1⟩,
   ⟨by decide, by decide, ((claim_C5 cexSeries [7]).2.1 (by decide) (by decide)).1⟩,
   ⟨by decide, by decide, (claim_C5 cexSeries [1, 2, 3]).2.2 (by decide) (by decide)⟩⟩

/-! ### C6: intersect -/

theorem contains_eq_decide_mem (l : List Nat) (x : Nat) :
    l.contains x = decide (x ∈ l) := by
  by_cases h : x ∈ l <;> simp [h]

theorem times_filter (q : Nat → Bool) :
    ∀ (a : TimeSeries), times (a.filter (fun s => q s.time)) = (times a).filter q := by
  intro a
  induction a with
  | nil => rfl
  | cons s t ih =>
    simp only [times] at ih
    by_cases h : q s.time
    · simp [times, List.filter_cons, h, ih]
    · simp [times, List.filter_cons, h, ih]

/-- C6: `intersect` keeps exactly those samples of the receiver whose
time occurs in the other series' timestamp set, in the receiver's
original order (a sublist of the receiver); the resulting length is the
cardinality of the timestamp-set intersection, and every surviving
sample's time is in both original timestamp sets. -/
theorem claim_C6 (a b : TimeSeries)
    (ha : (times a).Nodup) (hb : (times b).Nodup) :
    intersect a b = a.filter (fun s => decide (s.time ∈ times b)) ∧
    (intersect a b).Sublist a ∧
    times (intersect a b) = (times a).filter (fun u => decide (u ∈ times b)) ∧
    (intersect a b).length = ((times a).toFinset ∩ (times b).toFinset).card ∧
    (∀ s ∈ intersect a b, s.time ∈ times a ∧ s.time ∈ times b) := by
  have hpred : ∀ s : Sample, (times b).contains s.time = decide (s.time ∈ times b) :=
    fun s => contains_eq_decide_mem (times b) s.time
  have h1 : intersect a b = a.filter (fun s => decide (s.time ∈ times b)) := by
    unfold intersect
    exact List.filter_congr (fun s _ => hpred s)
  have h3 : times (intersect a b) = (times a).filter (fun u => decide (u ∈ times b)) := by
    unfold intersect
    rw [List.filter_congr (fun s _ => hpred s)]
    exact times_filter (fun u => decide (u ∈ times b)) a
  refine ⟨h1, List.filter_sublist a, h3, ?_, ?_⟩
  · have hlen : (intersect a b).length = (times (intersect a b)).length := by
      simp [times]
    rw [hlen, h3]
    have hnd : ((times a).filter (fun u => decide (u ∈ times b))).Nodup :=
      ha.filter _
    rw [← List.toFinset_card_of_nodup hnd, List.toFinset_filter]
    congr 1
    rw [← Finset.filter_mem_eq_inter]
    apply Finset.filter_congr
    intro x hx
    simp [List.mem_toFinset]
  · intro s hs
    rw [h1] at hs
    obtain ⟨hmem, hdec⟩ := List.mem_filter.mp hs
    exact ⟨List.mem_map_of_mem _ hmem, of_decide_eq_true hdec⟩

theorem claim_C6_witness :
    (times ([⟨0, 1⟩, ⟨2, 3⟩, ⟨5, 7⟩] : TimeSeries)).Nodup ∧
    (times ([⟨2, 100⟩, ⟨7, 4⟩] : TimeSeries)).Nodup ∧
    (intersect [⟨0, 1⟩, ⟨2, 3⟩, ⟨5, 7⟩] [⟨2, 100⟩, ⟨7, 4⟩]).length =
      ((times ([⟨0, 1⟩, ⟨2, 3⟩, ⟨5, 7⟩] : TimeSeries)).toFinset ∩
        (times ([⟨2, 100⟩, ⟨7, 4⟩] : TimeSeries)).toFinset).card :=
  ⟨by decide, by decide,
    (claim_C6 [⟨0, 1⟩, ⟨2, 3⟩, ⟨5, 7⟩] [⟨2, 100⟩, ⟨7, 4⟩]
      (by decide) (by decide)).2.2.2.1⟩

/-! ### C8: add and sub do not mutate their operands -/

/-- A store of arrays addressed by index, making the heap of `__add__` /
`__sub__` explicit.  The method reads both operand arrays, binds
`ts_sum.array` to the boolean-mask selection `self.array[indices1]` —
numpy fancy indexing, which always allocates a fresh array (here: the
cell appended at address `σ.length`) — and the in-place `+=` / `-=`
then writes only that fresh cell.  Returns the store and the address of
the result; `none` models a raised `ValueError`. -/
def addSubHeap (σ : List TimeSeries) (rT rU : Nat) (op : ℚ → ℚ → ℚ) :
    Option (List TimeSeries × Nat) :=
  match σ.get? rT, σ.get? rU with
  | some aT, some aU =>
    match combine op (intersect aT aU) (powers (intersect aU aT)) with
    | some arr => some ((σ ++ [intersect aT aU]).set σ.length arr, σ.length)
    | none => none
  | _, _ => none

/-- C8: `__add__` / `__sub__` (the store-level `addSubHeap`, whose
result cell holds exactly `addTS` for `op = +` and `subTS` for `op = -`)
leave the cells of both operands untouched and return a freshly
allocated cell distinct from both operand cells. -/
theorem claim_C8 (σ : List TimeSeries) (rT rU : Nat) (op : ℚ → ℚ → ℚ)
    (σ2 : List TimeSeries) (rS : Nat)
    (h : addSubHeap σ rT rU op = some (σ2, rS)) :
    σ2.get? rT = σ.get? rT ∧ σ2.get? rU = σ.get? rU ∧
    rS ≠ rT ∧ rS ≠ rU ∧ σ2.length = σ.length + 1 ∧
    (∀ aT aU, σ.get? rT = some aT → σ.get? rU = some aU →
      σ2.get? rS = combine op (intersect aT aU) (powers (intersect aU aT))) := by
  unfold addSubHeap at h
  cases hT : σ.get? rT with
  | none => rw [hT] at h; cases h
  | some aT =>
  cases hU : σ.get? rU with
  | none => rw [hT, hU] at h; cases h
  | some aU =>
  rw [hT, hU] at h
  dsimp only at h
  cases hC : combine op (intersect aT aU) (powers (intersect aU aT)) with
  | none => rw [hC] at h; cases h
  | some arr =>
  rw [hC] at h
  dsimp only at h
  injection h with h
  injection h with hσ hr
  subst hσ
  subst hr
  have hrT : rT < σ.length := by
    by_contra hle
    rw [List.get?_eq_none.mpr (by omega)] at hT
    cases hT
  have hrU : rU < σ.length := by
    by_contra hle
    rw [List.get?_eq_none.mpr (by omega)] at hU
    cases hU
  have happlen : (σ ++ [intersect aT aU]).length = σ.length + 1 := by simp
  refine ⟨?_, ?_, by omega, by omega, by simp, ?_⟩
  · rw [List.get?_set_ne _ _ (by omega), List.get?_append hrT]
    exact hT
  · rw [List.get?_set_ne _ _ (by omega), List.get?_append hrU]
    exact hU
  · intro aT2 aU2 hT2 hU2
    injection hT2 with h2
    injection hU2 with h3
    subst h2
    subst h3
    rw [hC, List.get?_eq_getElem?]
    exact List.getElem?_set_eq_of_lt arr (by simp)

theorem claim_C8_witness :
    addSubHeap [[⟨0, 1⟩, ⟨2, 3⟩], [⟨0, 0⟩, ⟨2, 0⟩]] 0 1 (· + ·) =
      some ([[⟨0, 1⟩, ⟨2, 3⟩], [⟨0, 0⟩, ⟨2, 0⟩], [⟨0, 1⟩, ⟨2, 3⟩]], 2) ∧
    ([[⟨0, 1⟩, ⟨2, 3⟩], [⟨0, 0⟩, ⟨2, 0⟩], [⟨0, 1⟩, ⟨2, 3⟩]] : List TimeSeries).get? 0 =
      ([[⟨0, 1⟩, ⟨2, 3⟩], [⟨0, 0⟩, ⟨2, 0⟩]] : List TimeSeries).get? 0 ∧
    ([[⟨0, 1⟩, ⟨2, 3⟩], [⟨0, 0⟩, ⟨2, 0⟩], [⟨0, 1⟩, ⟨2, 3⟩]] : List TimeSeries).get? 1 =
      ([[⟨0, 1⟩, ⟨2, 3⟩], [⟨0, 0⟩, ⟨2, 0⟩]] : List TimeSeries).get? 1 :=
  ⟨by simp [addSubHeap, combine, intersect, times, powers],
   (claim_C8 [[⟨0, 1⟩, ⟨2, 3⟩], [⟨0, 0⟩, ⟨2, 0⟩]] 0 1 (· + ·)
     [[⟨0, 1⟩, ⟨2, 3⟩], [⟨0, 0⟩, ⟨2, 0⟩], [⟨0, 1⟩, ⟨2, 3⟩]] 2
     (by simp [addSubHeap, combine, intersect, times, powers])).1,
   (claim_C8 [[⟨0, 1⟩, ⟨2, 3⟩], [⟨0, 0⟩, ⟨2, 0⟩]] 0 1 (· + ·)
     [[⟨0, 1⟩, ⟨2, 3⟩], [⟨0, 0⟩, ⟨2, 0⟩], [⟨0, 1⟩, ⟨2, 3⟩]] 2
     (by simp [addSubHeap, combine, intersect, times, powers])).2.1⟩

/-! ### C7: add/sub inverse on identical timestamp sets -/

theorem time_mem_times {s : Sample} {a : TimeSeries} (h : s ∈ a) : s.time ∈ times a := by
  simp only [times, List.mem_map]
  exact ⟨s, h, rfl⟩

theorem intersect_eq_self (a b : TimeSeries) (h : ∀ s ∈ a, s.time ∈ times b) :
    intersect a b = a := by
  unfold intersect
  rw [List.filter_eq_self]
  intro s hs
  rw [contains_eq_decide_mem]
  exact decide_eq_true (h s hs)

theorem zipWith_add_sub : ∀ (xs ys : List ℚ), ys.length = xs.length →
    List.zipWith (fun u v => u - v) (List.zipWith (fun u v => u + v) xs ys) ys = xs := by
  intro xs
  induction xs with
  | nil => intro ys _; simp
  | cons x xt ih =>
    intro ys h
    cases ys with
    | nil => simp at h
    | cons y yt =>
      simp only [List.zipWith_cons_cons, add_sub_cancel_right]
      rw [ih yt (by simpa using h)]

/-- C7: for strictly sorted (hence unique-timestamp) series with
identical timestamp sets, `(T + U) - U` succeeds, has the same timestamp
sequence as `T`, and its power values equal those of `T` (exactly, in
the rational model of float32 arithmetic — which in particular is
equality within any floating-point tolerance). -/
theorem claim_C7 (a b : TimeSeries)
    (ha : List.Pairwise (fun s t => s.time < t.time) a)
    (hb : List.Pairwise (fun s t => s.time < t.time) b)
    (hset : ∀ u, u ∈ times a ↔ u ∈ times b) :
    ∃ v w, addTS a b = some v ∧ subTS v b = some w ∧
      times w = times a ∧ powers w = powers a := by
  have hnda : (times a).Nodup := by
    simp only [times]
    exact (List.pairwise_map.mpr ha).imp (fun h => Nat.ne_of_lt h)
  have hndb : (times b).Nodup := by
    simp only [times]
    exact (List.pairwise_map.mpr hb).imp (fun h => Nat.ne_of_lt h)
  have hperm : (times a).Perm (times b) :=
    (List.perm_ext_iff_of_nodup hnda hndb).mpr hset
  have hlab : a.length = b.length := by
    have := hperm.length_eq
    simpa [times] using this
  have hlenpb : (powers b).length = a.length := by simp [powers, hlab]
  have hia : intersect a b = a :=
    intersect_eq_self a b (fun s hs => (hset s.time).mp (time_mem_times hs))
  have hib : intersect b a = b :=
    intersect_eq_self b a (fun s hs => (hset s.time).mpr (time_mem_times hs))
  have hV : addTS a b =
      some (List.zipWith (fun s p => { s with power := s.power + p }) a (powers b)) := by
    unfold addTS combine
    rw [hia, hib, if_pos hlenpb]
  set V := List.zipWith (fun s p => { s with power := s.power + p }) a (powers b) with hVdef
  have htV : times V = times a :=
    times_zipWith (fun s p => { s with power := s.power + p }) (fun _ _ => rfl)
      a (powers b) hlenpb
  have hpV : powers V = List.zipWith (fun u v => u + v) (powers a) (powers b) :=
    powers_zipWith (fun s p => { s with power := s.power + p }) (fun u v => u + v)
      (fun _ _ => rfl) a (powers b) hlenpb
  have hVlen : V.length = a.length := by
    rw [hVdef, List.length_zipWith]
    omega
  have hiV : intersect V b = V :=
    intersect_eq_self V b
      (fun s hs => (hset s.time).mp (htV ▸ time_mem_times hs))
  have hibV : intersect b V = b :=
    intersect_eq_self b V
      (fun s hs => htV ▸ ((hset s.time).mpr (time_mem_times hs)))
  have hlenpbV : (powers b).length = V.length := by rw [hVlen]; exact hlenpb
  have hW : subTS V b =
      some (List.zipWith (fun s p => { s with power := s.power - p }) V (powers b)) := by
    unfold subTS combine
    rw [hiV, hibV, if_pos hlenpbV]
  set W := List.zipWith (fun s p => { s with power := s.power - p }) V (powers b) with hWdef
  have htW : times W = times V :=
    times_zipWith (fun s p => { s with power := s.power - p }) (fun _ _ => rfl)
      V (powers b) hlenpbV
  have hpW : powers W = List.zipWith (fun u v => u - v) (powers V) (powers b) :=
    powers_zipWith (fun s p => { s with power := s.power - p }) (fun u v => u - v)
      (fun _ _ => rfl) V (powers b) hlenpbV
  refine ⟨V, W, hV, hW, htW.trans htV, ?_⟩
  rw [hpW, hpV]
  exact zipWith_add_sub (powers a) (powers b) (by simp [powers, hlab])

theorem claim_C7_witness :
    ∃ v w, addTS [⟨0, 1⟩, ⟨2, 3⟩] [⟨0, 0⟩, ⟨2, 0⟩] = some v ∧
      subTS v [⟨0, 0⟩, ⟨2, 0⟩] = some w ∧
      times w = times ([⟨0, 1⟩, ⟨2, 3⟩] : TimeSeries) ∧
      powers w = powers ([⟨0, 1⟩, ⟨2, 3⟩] : TimeSeries) :=
  claim_C7 [⟨0, 1⟩, ⟨2, 3⟩] [⟨0, 0⟩, ⟨2, 0⟩] (by decide) (by decide)
    (fun u => Iff.rfl)

/-! ### Padding: shape lemmas -/

theorem padRun_cons_cons (s t : Sample) (rest : TimeSeries) (g : Nat) :
    padRun (s :: t :: rest) g =
      s :: ((if t.time - s.time > g then [] else gapFill s t) ++ padRun (t :: rest) g) :=
  rfl

theorem padRun_ne_nil (s : Sample) (rest : TimeSeries) (g : Nat) :
    padRun (s :: rest) g ≠ [] := by
  cases rest with
  | nil => simp [padRun]
  | cons t r => simp [padRun]

theorem padRun_head? (s : Sample) (rest : TimeSeries) (g : Nat) :
    (padRun (s :: rest) g).head? = some s := by
  cases rest with
  | nil => rfl
  | cons t r => rfl

theorem pad_eq_some (c : TimeSeries) (g : Nat) (h : c ≠ []) :
    pad c g = some (padRun c g) := by
  cases c with
  | nil => exact absurd rfl h
  | cons s rest => rfl

theorem padRun_getLast? : ∀ (c : TimeSeries) (g : Nat), c ≠ [] →
    (padRun c g).getLast? = c.getLast? := by
  intro c
  induction c with
  | nil => intro g h; exact absurd rfl h
  | cons s rest ih =>
    intro g _
    cases rest with
    | nil => rfl
    | cons t r =>
      have h2 := ih g (by simp)
      calc (padRun (s :: t :: r) g).getLast?
          = ((s :: (if t.time - s.time > g then [] else gapFill s t))
              ++ padRun (t :: r) g).getLast? := by
            rw [padRun_cons_cons, List.cons_append]
        _ = (padRun (t :: r) g).getLast? :=
            List.getLast?_append_of_ne_nil _ (padRun_ne_nil t r g)
        _ = (t :: r).getLast? := h2
        _ = (s :: t :: r).getLast? := List.getLast?_cons_cons.symm

/-! ### Padding: sortedness -/

theorem chain'_gapFill_append (p : ℚ) : ∀ (n st : Nat) (L : List Sample),
    List.Chain' (fun s t => s.time < t.time) L →
    (∀ y ∈ L.head?, st + n ≤ y.time) →
    List.Chain' (fun s t => s.time < t.time)
      (((List.range' st n).map (fun u => (⟨u, p⟩ : Sample))) ++ L) := by
  intro n
  induction n with
  | zero => intro st L hL _; simpa using hL
  | succ m ih =>
    intro st L hL hy
    rw [List.range'_succ]
    simp only [List.map_cons, List.cons_append]
    refine List.chain'_cons'.mpr
      ⟨?_, ih (st + 1) L hL (fun y hy2 => by have := hy y hy2; omega)⟩
    intro y hy2
    show st < y.time
    cases m with
    | zero =>
      simp only [List.range', List.map_nil, List.nil_append] at hy2
      have := hy y hy2
      omega
    | succ k =>
      rw [List.range'_succ] at hy2
      simp only [List.map_cons, List.cons_append, List.head?_cons,
        Option.mem_def, Option.some.injEq] at hy2
      rw [← hy2]
      exact Nat.lt_succ_self st

theorem padRun_chain : ∀ (c : TimeSeries) (g : Nat),
    List.Chain' (fun s t => s.time < t.time) c →
    List.Chain' (fun s t => s.time < t.time) (padRun c g) := by
  intro c
  induction c with
  | nil => intro g _; simp [padRun]
  | cons s rest ih =>
    intro g hc
    cases rest with
    | nil => simp [padRun]
    | cons t r =>
      have hst : s.time < t.time := (List.chain'_cons.mp hc).1
      have htail := (List.chain'_cons.mp hc).2
      have hP := ih g htail
      rw [padRun_cons_cons]
      by_cases hgap : t.time - s.time > g
      · rw [if_pos hgap]
        simp only [List.nil_append]
        refine List.chain'_cons'.mpr ⟨?_, hP⟩
        intro y hy
        rw [padRun_head?] at hy
        simp only [Option.mem_def, Option.some.injEq] at hy
        rw [← hy]
        exact hst
      · rw [if_neg hgap]
        refine List.chain'_cons'.mpr ⟨?_, ?_⟩
        · intro y hy
          show s.time < y.time
          rcases Nat.eq_zero_or_pos (t.time - s.time - 1) with hn | hn
          · have hfill : gapFill s t = [] := by simp [gapFill, hn]
            rw [hfill, List.nil_append, padRun_head?] at hy
            simp only [Option.mem_def, Option.some.injEq] at hy
            rw [← hy]
            exact hst
          · obtain ⟨k, hk⟩ : ∃ k, t.time - s.time - 1 = k + 1 :=
              ⟨t.time - s.time - 2, by omega⟩
            unfold gapFill at hy
            rw [hk, List.range'_succ] at hy
            simp only [List.map_cons, List.cons_append, List.head?_cons,
              Option.mem_def, Option.some.injEq] at hy
            rw [← hy]
            exact Nat.lt_succ_self s.time
        · unfold gapFill
          apply chain'_gapFill_append s.power (t.time - s.time - 1) (s.time + 1)
          · exact hP
          · intro y hy
            rw [padRun_head?] at hy
            simp only [Option.mem_def, Option.some.injEq] at hy
            rw [← hy]
            omega

/-! ### Padding: membership characterisation -/

theorem padRun_suffix_mem {x : Sample} (s : Sample) (rest : TimeSeries) (g : Nat)
    (h : x ∈ padRun rest g) : x ∈ padRun (s :: rest) g := by
  cases rest with
  | nil => simp [padRun] at h
  | cons t r =>
    rw [padRun_cons_cons]
    exact List.mem_cons_of_mem _ (List.mem_append_right _ h)

theorem padRun_mem_fill : ∀ (c : TimeSeries) (g : Nat) (p : Sample × Sample),
    p ∈ c.zip c.tail → p.2.time - p.1.time ≤ g →
    ∀ u, p.1.time < u → u < p.2.time → (⟨u, p.1.power⟩ : Sample) ∈ padRun c g := by
  intro c
  induction c with
  | nil => intro g p hp _ u _ _; simp at hp
  | cons s rest ih =>
    intro g p hp hgap u hu1 hu2
    cases rest with
    | nil => simp at hp
    | cons t r =>
      rw [List.tail_cons, List.zip_cons_cons, List.mem_cons] at hp
      rcases hp with hp | hp
      · subst hp
        simp only at hu1 hu2 hgap
        rw [padRun_cons_cons, if_neg (by omega)]
        apply List.mem_cons_of_mem
        apply List.mem_append_left
        unfold gapFill
        refine List.mem_map.mpr ⟨u, ?_, rfl⟩
        exact List.mem_range'_1.mpr ⟨by omega, by omega⟩
      · exact padRun_suffix_mem s (t :: r) g (ih g p hp hgap u hu1 hu2)

theorem padRun_times_char : ∀ (c : TimeSeries) (g : Nat) (u : Nat),
    u ∈ times (padRun c g) →
    u ∈ times c ∨ ∃ p, p ∈ c.zip c.tail ∧ p.2.time - p.1.time ≤ g ∧
      p.1.time < u ∧ u < p.2.time := by
  intro c
  induction c with
  | nil => intro g u h; simp [padRun, times] at h
  | cons s rest ih =>
    intro g u h
    cases rest with
    | nil =>
      simp only [padRun, times, List.map_cons, List.map_nil, List.mem_singleton] at h
      exact Or.inl (by simp [times, h])
    | cons t r =>
      rw [padRun_cons_cons] at h
      simp only [times, List.map_cons, List.map_append, List.mem_cons,
        List.mem_append] at h
      rcases h with h | h | h
      · exact Or.inl (by simp [times, h])
      · by_cases hgap : t.time - s.time > g
        · rw [if_pos hgap] at h
          simp at h
        · rw [if_neg hgap] at h
          simp only [gapFill, List.map_map, List.mem_map, Function.comp] at h
          obtain ⟨v, hv, hvu⟩ := h
          have hv2 := List.mem_range'_1.mp hv
          have hvu2 : v = u := hvu
          refine Or.inr ⟨(s, t), ?_, ?_, ?_, ?_⟩
          · rw [List.tail_cons, List.zip_cons_cons]
            exact List.mem_cons_self _ _
          · show t.time - s.time ≤ g
            omega
          · show s.time < u
            omega
          · show u < t.time
            omega
      · rcases ih g u (by simpa [times] using h) with h2 | ⟨p, hp, hg2, hb1, hb2⟩
        · left
          simp only [times, List.map_cons, List.mem_cons] at h2 ⊢
          tauto
        · refine Or.inr ⟨p, ?_, hg2, hb1, hb2⟩
          rw [List.tail_cons, List.zip_cons_cons]
          rw [List.tail_cons] at hp
          exact List.mem_cons_of_mem _ hp

theorem pairwise_adj_split : ∀ (c : TimeSeries),
    List.Pairwise (fun s t => s.time < t.time) c →
    ∀ p, p ∈ c.zip c.tail → ∀ x ∈ c, x.time ≤ p.1.time ∨ p.2.time ≤ x.time := by
  intro c
  induction c with
  | nil => intro _ p hp; simp at hp
  | cons s rest ih =>
    intro hpw p hp x hx
    cases rest with
    | nil => simp at hp
    | cons t r =>
      rw [List.tail_cons, List.zip_cons_cons, List.mem_cons] at hp
      have hpw2 := List.pairwise_cons.mp hpw
      rcases hp with hp | hp
      · subst hp
        rcases List.mem_cons.mp hx with hx | hx
        · left
          rw [hx]
        · right
          rcases List.mem_cons.mp hx with hx2 | hx2
          · rw [hx2]
          · exact le_of_lt ((List.pairwise_cons.mp hpw2.2).1 x hx2)
      · rcases List.mem_cons.mp hx with hx | hx
        · subst hx
          exact Or.inl (le_of_lt (hpw2.1 p.1 (List.of_mem_zip hp).1))
        · exact ih hpw2.2 p hp x hx

/-! ### C3: pad -/

/-- The concrete pad example of the spec. -/
def padExample : TimeSeries := [⟨0, 5⟩, ⟨1, 6⟩, ⟨5, 9⟩]

/-- C3: on a sorted unique-timestamp series of at least two samples,
`pad(maxGap)` fills every gap between consecutive samples of length at
most `maxGap` with all intermediate integer timestamps carrying the left
endpoint's power, leaves every timestamp strictly inside a longer gap
absent, and always ends with the final original sample; on
`[(0,5),(1,6),(5,9)]` with `maxGap = 2` it returns the series unchanged
and with `maxGap = 10` it fills the gap from 1 to 5 with the left
value 6. -/
theorem claim_C3 (c : TimeSeries) (g : Nat)
    (hc : List.Pairwise (fun s t => s.time < t.time) c) (hlen : 2 ≤ c.length) :
    (∃ P, pad c g = some P ∧
      (∀ p ∈ c.zip c.tail, p.2.time - p.1.time ≤ g →
        ∀ u, p.1.time < u → u < p.2.time → (⟨u, p.1.power⟩ : Sample) ∈ P) ∧
      (∀ p ∈ c.zip c.tail, g < p.2.time - p.1.time →
        ∀ u, p.1.time < u → u < p.2.time → u ∉ times P) ∧
      P.getLast? = c.getLast?) ∧
    pad padExample 2 = some padExample ∧
    pad padExample 10 =
      some [⟨0, 5⟩, ⟨1, 6⟩, ⟨2, 6⟩, ⟨3, 6⟩, ⟨4, 6⟩, ⟨5, 9⟩] := by
  have hcne : c ≠ [] := by
    intro h
    rw [h] at hlen
    simp at hlen
  refine ⟨⟨padRun c g, pad_eq_some c g hcne, ?_, ?_, padRun_getLast? c g hcne⟩,
    by decide, by decide⟩
  · intro p hp hgap u h1 h2
    exact padRun_mem_fill c g p hp hgap u h1 h2
  · intro p hp hgap u h1 h2 hmem
    rcases padRun_times_char c g u hmem with hor | ⟨q, hq, hqg, hq1, hq2⟩
    · simp only [times, List.mem_map] at hor
      obtain ⟨x, hx, hxu⟩ := hor
      rcases pairwise_adj_split c hc p hp x hx with h3 | h3 <;> omega
    · have e1 := pairwise_adj_split c hc p hp q.1 (List.of_mem_zip hq).1
      have e2 := pairwise_adj_split c hc p hp q.2
        (List.mem_of_mem_tail (List.of_mem_zip hq).2)
      have e3 := pairwise_adj_split c hc q hq p.1 (List.of_mem_zip hp).1
      have e4 := pairwise_adj_split c hc q hq p.2
        (List.mem_of_mem_tail (List.of_mem_zip hp).2)
      omega

theorem claim_C3_witness :
    (∃ P, pad padExample 10 = some P ∧
      (∀ p ∈ padExample.zip padExample.tail, p.2.time - p.1.time ≤ 10 →
        ∀ u, p.1.time < u → u < p.2.time → (⟨u, p.1.power⟩ : Sample) ∈ P) ∧
      (∀ p ∈ padExample.zip padExample.tail, 10 < p.2.time - p.1.time →
        ∀ u, p.1.time < u → u < p.2.time → u ∉ times P) ∧
      P.getLast? = padExample.getLast?) ∧
    pad padExample 2 = some padExample ∧
    pad padExample 10 =
      some [⟨0, 5⟩, ⟨1, 6⟩, ⟨2, 6⟩, ⟨3, 6⟩, ⟨4, 6⟩, ⟨5, 9⟩] :=
  claim_C3 padExample 10 (by decide) (by decide)

/-! ### C4: sortedness invariant -/

instance : IsTrans Sample (fun s t => s.time < t.time) :=
  ⟨fun _ _ _ h1 h2 => Nat.lt_trans h1 h2⟩

theorem setPowersRun_times (a : TimeSeries) (ps : List ℚ) :
    times (setPowersRun a ps).2 = times a := by
  unfold setPowersRun setPowers
  by_cases h : ps.length = a.length
  · rw [if_pos h]
    exact times_zipWith (fun s p => { s with power := p }) (fun _ _ => rfl) a ps h
  · rw [if_neg h]
    by_cases h1 : ps.length = 1
    · rw [if_pos h1]
      exact times_map (fun s => { s with power := ps.headI }) (fun _ => rfl) a
    · rw [if_neg h1]

theorem combine_times (op : ℚ → ℚ → ℚ) (x : TimeSeries) (ps : List ℚ) (v : TimeSeries)
    (h : combine op x ps = some v) : times v = times x := by
  unfold combine at h
  by_cases h1 : ps.length = x.length
  · rw [if_pos h1] at h
    injection h with h
    rw [← h]
    exact times_zipWith (fun s p => { s with power := op s.power p })
      (fun _ _ => rfl) x ps h1
  · rw [if_neg h1] at h
    by_cases h2 : ps.length = 1
    · rw [if_pos h2] at h
      injection h with h
      rw [← h]
      exact times_map (fun s => { s with power := op s.power ps.headI }) (fun _ => rfl) x
    · rw [if_neg h2] at h
      cases h

/-- C4: after each operation the resulting (or mutated) times sequence
is non-decreasing: loading sorts the raw records; `intersect` filters a
sorted receiver; `pad` of a sorted unique-timestamp non-empty series is
sorted; the powers setter never changes `times`; `__add__` / `__sub__`
build their result on the filtered (hence sorted) copy of the
receiver. -/
theorem claim_C4 (raw a b c : TimeSeries) (ps : List ℚ) (g : Nat)
    (ha : List.Pairwise (· ≤ ·) (times a))
    (hc : List.Pairwise (· < ·) (times c)) (hcne : c ≠ []) :
    List.Pairwise (· ≤ ·) (times (load raw)) ∧
    List.Pairwise (· ≤ ·) (times (intersect a b)) ∧
    (pad c g = some (padRun c g) ∧ List.Pairwise (· ≤ ·) (times (padRun c g))) ∧
    (times (setPowersRun a ps).2 = times a ∧
      List.Pairwise (· ≤ ·) (times (setPowersRun a ps).2)) ∧
    (∀ v, addTS a b = some v → List.Pairwise (· ≤ ·) (times v)) ∧
    (∀ v, subTS a b = some v → List.Pairwise (· ≤ ·) (times v)) := by
  have hsamp : List.Pairwise (fun s t : Sample => s.time ≤ t.time) a :=
    List.pairwise_map.mp ha
  have hinter : List.Pairwise (fun s t : Sample => s.time ≤ t.time) (intersect a b) :=
    List.Pairwise.sublist (List.filter_sublist a) hsamp
  refine ⟨?_, ?_, ⟨pad_eq_some c g hcne, ?_⟩, ⟨setPowersRun_times a ps, ?_⟩, ?_, ?_⟩
  · have hs := List.sorted_insertionSort sampleLE raw
    have h2 : List.Pairwise (fun s t : Sample => s.time ≤ t.time) (load raw) := by
      refine hs.imp ?_
      intro s t hst
      rcases hst with h | ⟨h, _⟩
      · exact le_of_lt h
      · exact le_of_eq h
    exact List.pairwise_map.mpr h2
  · exact List.pairwise_map.mpr hinter
  · have hcs : List.Pairwise (fun s t : Sample => s.time < t.time) c :=
      List.pairwise_map.mp hc
    have hpw : List.Pairwise (fun s t : Sample => s.time < t.time) (padRun c g) :=
      List.chain'_iff_pairwise.mp (padRun_chain c g hcs.chain')
    exact List.pairwise_map.mpr (hpw.imp (fun h => le_of_lt h))
  · rw [setPowersRun_times a ps]
    exact ha
  · intro v hv
    unfold addTS at hv
    rw [combine_times _ _ _ _ hv]
    exact List.pairwise_map.mpr hinter
  · intro v hv
    unfold subTS at hv
    rw [combine_times _ _ _ _ hv]
    exact List.pairwise_map.mpr hinter

theorem claim_C4_witness :
    List.Pairwise (· ≤ ·) (times (load [⟨1, 2⟩, ⟨0, 1⟩])) ∧
    List.Pairwise (· ≤ ·) (times (intersect [⟨0, 1⟩, ⟨2, 3⟩] [⟨0, 0⟩, ⟨2, 0⟩])) ∧
    (pad padExample 2 = some (padRun padExample 2) ∧
      List.Pairwise (· ≤ ·) (times (padRun padExample 2))) ∧
    (times (setPowersRun [⟨0, 1⟩, ⟨2, 3⟩] [7]).2 = times ([⟨0, 1⟩, ⟨2, 3⟩] : TimeSeries) ∧
      List.Pairwise (· ≤ ·) (times (setPowersRun [⟨0, 1⟩, ⟨2, 3⟩] [7]).2)) ∧
    (∀ v, addTS [⟨0, 1⟩, ⟨2, 3⟩] [⟨0, 0⟩, ⟨2, 0⟩] = some v →
      List.Pairwise (· ≤ ·) (times v)) ∧
    (∀ v, subTS [⟨0, 1⟩, ⟨2, 3⟩] [⟨0, 0⟩, ⟨2, 0⟩] = some v →
      List.Pairwise (· ≤ ·) (times v)) :=
  claim_C4 [⟨1, 2⟩, ⟨0, 1⟩] [⟨0, 1⟩, ⟨2, 3⟩] [⟨0, 0⟩, ⟨2, 0⟩] padExample [7] 2
    (by decide) (by decide) (by decide)

end NILM
